import Mathlib

/-!
Verification development for `sharp_geomhelpers.c` (libsharp geometry helpers).

The C source computes with IEEE doubles.  We embed it shallowly:

* The Newton iteration of `gauss_legendre_tbl` uses only field operations
  inside its loop, so the loop is modelled generically over a linear ordered
  field; claims about its control flow are stated over `ℚ` (exact arithmetic,
  abstract seed), and the Gauss grid builder instantiates it at `ℝ` with the
  transcendental seeds.
* Integer quantities (`nph`, `ofs`, ring counts) are modelled over `ℕ`/`ℤ`.
* Real-valued quantities (theta, phi0, weights) are modelled over `ℝ`.  In
  `sharp_make_hw_geom_info` a zero denominator is reachable (`nrings = 1`
  makes `lmax = 0` and `nrings-1. = 0`), and an IEEE division by zero yields
  a non-finite double (inf or NaN) that contaminates everything downstream;
  there a computed double is modelled as `Option ℝ` with `none` standing for
  a non-finite value.  In the other builders every denominator is provably
  nonzero, so plain real division is used.
-/

namespace LibSharp

/-! ## gauss_legendre_tbl: the Newton iteration (sharp_geomhelpers.c lines 110-158) -/

variable (K : Type) [LinearOrderedField K]

/-- The convergence threshold `eps = 3e-14` of `gauss_legendre_tbl`. -/
def glEps : K := 3 / 10 ^ 14

/-- The inner recurrence `for (k=2; k<=n; k++) { P_2=P_1; P_1=P0;
P0 = x0*P_1 + (k-1.)/k * (x0*P_1-P_2); }` starting from `P_1 = 1, P0 = x0`.
Returns the pair `(P0, P_1)` after the loop, i.e. the values of the Legendre
polynomials `P_n` and `P_{n-1}` at `x`. -/
def legPair (n : ℕ) (x : K) : K × K :=
  (List.range (n - 1)).foldl
    (fun (p : K × K) (k : ℕ) =>
      (x * p.1 + ((k : K) + 1) / ((k : K) + 2) * (x * p.1 - p.2), p.1))
    (x, 1)

/-- `dpdx = (x0*P0 - P_1) * n / (x0*x0-1.)` -/
def dPdx (n : ℕ) (x : K) : K :=
  (x * (legPair K n x).1 - (legPair K n x).2) * (n : K) / (x * x - 1)

/-- One Newton update `x1 = x0 - P0/dpdx`. -/
def nStep (n : ℕ) (x : K) : K :=
  x - (legPair K n x).1 / dPdx K n x

/-- The `while(1)` loop of `gauss_legendre_tbl` for one node.  Each pass
recomputes the recurrence and the Newton update unconditionally, then
breaks if `dobreak` was set on the *previous* pass; otherwise it sets
`dobreak` when `|dx| <= eps` and runs `UTIL_ASSERT(++j<100,...)`.  `fuel`
is the number of times the assertion may still succeed (99 at entry, since
`j` starts at 0 and the assertion aborts when `j` reaches 100); `none`
models the assertion failure.  On success the result is
`(final x0, dpdx of the final pass, number of passes executed)`. -/
def newtonLoop (n : ℕ) : ℕ → K → Bool → Option (K × K × ℕ)
  | 0, x0, dobreak =>
    if dobreak then some (nStep K n x0, dPdx K n x0, 1) else none
  | f + 1, x0, dobreak =>
    if dobreak then some (nStep K n x0, dPdx K n x0, 1)
    else
      (newtonLoop n f (nStep K n x0)
          (decide (|x0 - nStep K n x0| ≤ glEps K))).map
        (fun r => (r.1, r.2.1, r.2.2 + 1))

/-- The Newton loop as entered by `gauss_legendre_tbl`: `j = 0`,
`dobreak = 0`, and the assertion `++j < 100` may succeed 99 times. -/
def newtonRun (n : ℕ) (x : K) : Option (K × K × ℕ) :=
  newtonLoop K n 99 x false

/-- `convAt K n x p` holds when the pass computing the `(p+1)`-st Newton
update observes `|dx| <= eps`, i.e. `|x_p - x_{p+1}| <= eps` for the
iterates `x_i = nStep^[i] x`. -/
def convAt (n : ℕ) (x : K) (p : ℕ) : Prop :=
  |(nStep K n)^[p] x - (nStep K n)^[p + 1] x| ≤ glEps K

instance (n : ℕ) (x : ℚ) (p : ℕ) : Decidable (convAt ℚ n x p) := by
  unfold convAt; infer_instance

/-! ## The per-ring data handed to sharp_make_geom_info -/

/-- One ring of the arrays a builder passes to `sharp_make_geom_info`:
colatitude, pixel count, first-pixel longitude, array offset, stride and
quadrature weight. -/
structure RingDescriptor where
  theta : ℝ
  nphi : ℕ
  phi0 : ℝ
  ofs : ℤ
  stride : ℤ
  weight : ℝ

noncomputable instance : Inhabited RingDescriptor :=
  ⟨⟨0, 0, 0, 0, 0, 0⟩⟩

/-- The two `UTIL_ASSERT` parameter checks of the ECP and Driscoll-Healy
builders, modelled as a typed error instead of a process abort. -/
inductive ConfigError
  | parity
deriving DecidableEq

/-! ## sharp_make_weighted_healpix_geom_info (lines 46-101) -/

/-- `northring = (ring>2*nside) ? 4*nside-ring : ring` with `ring = m+1`. -/
def hpNorthring (nside m : ℕ) : ℕ :=
  if m + 1 > 2 * nside then 4 * nside - (m + 1) else m + 1

/-- Pixels on ring `m`: `4*northring` in the polar cap, else `4*nside`. -/
def hpNph (nside m : ℕ) : ℕ :=
  if hpNorthring nside m < nside then 4 * hpNorthring nside m else 4 * nside

/-- Colatitude of the northern mirror of ring `m`. -/
noncomputable def hpThetaNorth (nside m : ℕ) : ℝ :=
  if hpNorthring nside m < nside then
    2 * Real.arcsin ((hpNorthring nside m : ℝ) / (Real.sqrt 6 * nside))
  else
    Real.arccos ((2 * (nside : ℝ) - (hpNorthring nside m : ℝ)) *
      (8 * (nside : ℝ) / (12 * (nside : ℝ) ^ 2)))

/-- Colatitude of ring `m`, mirrored (`theta = pi - theta`) on the southern
hemisphere (`northring != ring`). -/
noncomputable def hpTheta (nside m : ℕ) : ℝ :=
  if m + 1 > 2 * nside then Real.pi - hpThetaNorth nside m
  else hpThetaNorth nside m

/-- First-pixel longitude of ring `m`: `pi/nph` in the polar cap, and the
checkerboard `0` / `pi/nph` pattern on the equatorial belt. -/
noncomputable def hpPhi0 (nside m : ℕ) : ℝ :=
  if hpNorthring nside m < nside then Real.pi / (hpNph nside m : ℝ)
  else if (hpNorthring nside m - nside) % 2 = 1 then 0
  else Real.pi / (hpNph nside m : ℝ)

/-- The pre-mirror offset of ring `m`: `2*northring*(northring-1)*stride`
in the polar cap, `(ncap + (northring-nside)*nph)*stride` on the belt,
with `ncap = 2*nside*(nside-1)`. -/
def hpOfsNorth (nside : ℕ) (stride : ℤ) (m : ℕ) : ℤ :=
  if hpNorthring nside m < nside then
    2 * (hpNorthring nside m : ℤ) * ((hpNorthring nside m : ℤ) - 1) * stride
  else
    (2 * (nside : ℤ) * ((nside : ℤ) - 1) +
        ((hpNorthring nside m : ℤ) - (nside : ℤ)) * (hpNph nside m : ℤ)) * stride

/-- Offset of ring `m`, reflected as `(npix-nph)*stride - ofs` on the
southern hemisphere, with `npix = 12*nside^2`. -/
def hpOfs (nside : ℕ) (stride : ℤ) (m : ℕ) : ℤ :=
  if m + 1 > 2 * nside then
    (12 * (nside : ℤ) ^ 2 - (hpNph nside m : ℤ)) * stride - hpOfsNorth nside stride m
  else hpOfsNorth nside stride m

/-- `weight_[m] = 4*pi/npix * weight[northring-1]`. -/
noncomputable def hpWeight (nside m : ℕ) (w : List ℝ) : ℝ :=
  4 * Real.pi / (12 * (nside : ℝ) ^ 2) * w.getD (hpNorthring nside m - 1) 0

/-- `sharp_make_weighted_healpix_geom_info`: `4*nside-1` rings. -/
noncomputable def makeWeightedHealpixGeomInfo (nside : ℕ) (stride : ℤ)
    (w : List ℝ) : List RingDescriptor :=
  (List.range (4 * nside - 1)).map (fun m =>
    { theta := hpTheta nside m, nphi := hpNph nside m, phi0 := hpPhi0 nside m,
      ofs := hpOfs nside stride m, stride := stride,
      weight := hpWeight nside m w })

/-- `sharp_make_healpix_geom_info` (lines 37-44): allocate an array of
`2*nside` weights, set them all to `1`, and delegate. -/
noncomputable def makeHealpixGeomInfo (nside : ℕ) (stride : ℤ) :
    List RingDescriptor :=
  makeWeightedHealpixGeomInfo nside stride (List.replicate (2 * nside) 1)

/-! ## makeweights and sharp_make_ecp_geom_info (lines 160-243) -/

/-- `makeweights(bw, ...)`: the closed-form equidistant weights, value at
index `j` (only `j < 2*bw` is ever read). -/
noncomputable def makeweights (bw j : ℕ) : ℝ :=
  (∑ k ∈ Finset.range bw,
      1 / (2 * (k : ℝ) + 1) *
        Real.sin ((2 * (j : ℝ) + 1) * (2 * (k : ℝ) + 1) * (Real.pi / (4 * (bw : ℝ))))) *
    Real.sin ((2 * (j : ℝ) + 1) * (Real.pi / (4 * (bw : ℝ)))) * (2 / (bw : ℝ))

/-- `sharp_make_ecp_geom_info`: asserts `(nrings&1)==0` before building
anything, then fills the ring arrays. -/
noncomputable def makeEcpGeomInfo (nrings nphi : ℕ) (phi0 : ℝ)
    (strideLon strideLat : ℤ) : Except ConfigError (List RingDescriptor) :=
  if nrings % 2 = 0 then
    Except.ok ((List.range nrings).map (fun (m : ℕ) =>
      { theta := ((m : ℝ) + 0.5) * Real.pi / (nrings : ℝ), nphi := nphi,
        phi0 := phi0, ofs := (m : ℤ) * strideLat, stride := strideLon,
        weight := makeweights (nrings / 2) m * (2 * Real.pi / (nphi : ℝ)) }))
  else Except.error ConfigError.parity

/-! ## sharp_make_hw_geom_info (lines 245-295)

For `nrings = 1` this code divides by zero (`lmax = 0`, `nrings-1. = 0`);
on IEEE doubles that yields non-finite values.  A computed double is
therefore modelled as `Option ℝ`, `none` standing for a non-finite value
(NaN or inf): division by zero produces `none`, and `none` propagates
through every later operation exactly as NaN/inf contaminate doubles. -/

/-- Double division: a zero denominator yields a non-finite result. -/
noncomputable def fdiv (a b : ℝ) : Option ℝ :=
  if b = 0 then none else some (a / b)

/-- The trapezoid endpoint function `eps(j,J)` of the Keiner-Potts
formula. -/
noncomputable def eps (j J : ℕ) : ℝ :=
  if j = 0 ∨ j = J then 1 / 2
  else if 0 < j ∧ j < J then 1
  else 0

/-- `theta[m] = pi*m/(nrings-1.)`, then clamped to `[1e-15, pi-1e-15]` by
two successive `if`s.  A NaN compares false on both, so `none` stays
`none`. -/
noncomputable def hwTheta (nrings m : ℕ) : Option ℝ :=
  (fdiv (Real.pi * (m : ℝ)) ((nrings : ℝ) - 1)).map (fun t =>
    let t1 := if t < 1e-15 then 1e-15 else t
    if t1 > Real.pi - 1e-15 then Real.pi - 1e-15 else t1)

/-- One term `eps(l,lmax)/(1-4*l*l)*cos((pi*m*l)/lmax)` of the cosine
series; the integer denominator `1-4*l*l` is never zero. -/
noncomputable def hwWgtTerm (lmax m l : ℕ) : Option ℝ :=
  (fdiv (Real.pi * (m : ℝ) * (l : ℝ)) (lmax : ℝ)).map (fun a =>
    eps l lmax / (1 - 4 * (l : ℝ) * (l : ℝ)) * Real.cos a)

/-- Left-to-right accumulation `wgt += ...` over `Option`-valued doubles:
one non-finite term poisons the sum. -/
noncomputable def osum (f : ℕ → Option ℝ) : ℕ → Option ℝ
  | 0 => some 0
  | k + 1 => (osum f k).bind (fun s => (f k).map (fun t => s + t))

/-- `weight[m] = prefac*wgt/nph[m]` with
`prefac = 4*pi*eps(m,2*lmax)/lmax` and `lmax = (nrings-1)/2`. -/
noncomputable def hwWeight (nrings ppring m : ℕ) : Option ℝ :=
  (fdiv (4 * Real.pi * eps m (2 * ((nrings - 1) / 2))) (((nrings - 1) / 2 : ℕ) : ℝ)).bind
    (fun pf => (osum (hwWgtTerm ((nrings - 1) / 2) m) ((nrings - 1) / 2 + 1)).bind
      (fun s => fdiv (pf * s) (ppring : ℝ)))

/-- A ring of the Driscoll-Healy builder; `theta` and `weight` may be
non-finite (`none`) because their formulas can divide by zero. -/
structure HwRing where
  theta : Option ℝ
  nphi : ℕ
  phi0 : ℝ
  ofs : ℤ
  stride : ℤ
  weight : Option ℝ

noncomputable instance : Inhabited HwRing :=
  ⟨⟨none, 0, 0, 0, 0, none⟩⟩

/-- `sharp_make_hw_geom_info`: asserts `(nrings&1)==1` before building
anything, then fills the ring arrays. -/
noncomputable def makeHwGeomInfo (nrings ppring : ℕ) (phi0 : ℝ)
    (strideLon strideLat : ℤ) : Except ConfigError (List HwRing) :=
  if nrings % 2 = 1 then
    Except.ok ((List.range nrings).map (fun m =>
      { theta := hwTheta nrings m, nphi := ppring, phi0 := phi0,
        ofs := (m : ℤ) * strideLat, stride := strideLon,
        weight := hwWeight nrings ppring m }))
  else Except.error ConfigError.parity

/-! ## sharp_make_gauss_geom_info (lines 175-207) -/

/-- Initial guess `x0 = cos(pi * ((i<<2)-1) * t1) * t0` for node `i`. -/
noncomputable def gaussSeed (n i : ℕ) : ℝ :=
  Real.cos (Real.pi * (4 * (i : ℝ) - 1) * (1 / (4 * (n : ℝ) + 2))) *
    (1 - (1 - 1 / (n : ℝ)) / (8 * (n : ℝ) * (n : ℝ)))

/-- The loop index `i` of `gauss_legendre_tbl` whose pair of writes
(`x[i-1] = -x0`, `x[n-i] = x0`) determines slot `j`; for odd `n` the
middle slot receives its second write, `+x0`. -/
def gaussI (n j : ℕ) : ℕ :=
  if n ≤ 2 * j + 1 then n - j else j + 1

/-- The node value stored in `x[j]` by `gauss_legendre_tbl`, when the
Newton loop for the owning `i` converges. -/
noncomputable def gaussX (n j : ℕ) : Option ℝ :=
  (newtonRun ℝ n (gaussSeed n (gaussI n j))).map
    (fun r => if n ≤ 2 * j + 1 then r.1 else -r.1)

/-- The weight `w[i-1] = w[n-i] = 2/((1-x0*x0)*dpdx*dpdx)` stored in
`w[j]`. -/
noncomputable def gaussW (n j : ℕ) : Option ℝ :=
  (newtonRun ℝ n (gaussSeed n (gaussI n j))).map
    (fun r => 2 / ((1 - r.1 * r.1) * r.2.1 * r.2.1))

/-- `sharp_make_gauss_geom_info`: Gauss-Legendre nodes as colatitudes via
`theta[m] = acos(-theta[m])`, uniform `nphi` and `phi0 = 0`; `none` when
the Newton solver fails (the `UTIL_ASSERT` abort). -/
noncomputable def makeGaussGeomInfo (nrings nphi : ℕ)
    (strideLon strideLat : ℤ) : Option (List RingDescriptor) :=
  (List.range nrings).mapM (fun m =>
    (gaussX nrings m).bind (fun x => (gaussW nrings m).map (fun w =>
      { theta := Real.arccos (-x), nphi := nphi, phi0 := 0,
        ofs := (m : ℤ) * strideLat, stride := strideLon,
        weight := w * (2 * Real.pi / (nphi : ℝ)) })))

lemma convAt_zero (n : ℕ) (x : K) :
    convAt K n x 0 ↔ |x - nStep K n x| ≤ glEps K := by
  simp [convAt]

lemma convAt_shift (n : ℕ) (x : K) (j : ℕ) :
    convAt K n (nStep K n x) j ↔ convAt K n x (j + 1) := by
  simp [convAt, Function.iterate_succ_apply]

/-- A pass entered with `dobreak` set publishes the final update and stops,
whatever fuel remains. -/
lemma newtonLoop_break (n : ℕ) (fuel : ℕ) (x : K) :
    newtonLoop K n fuel x true = some (nStep K n x, dPdx K n x, 1) := by
  cases fuel <;> simp [newtonLoop]

/-- If the `(k+1)`-st pass is the first one to observe `|dx| <= eps` and
enough fuel remains for it, the loop runs exactly one further pass: it
publishes the `(k+2)`-nd Newton iterate together with the derivative value
of that final pass, after `k+2` passes in total. -/
lemma newtonLoop_first_conv (n : ℕ) :
    ∀ (k : ℕ) (x : K) (fuel : ℕ), convAt K n x k →
      (∀ j, j < k → ¬ convAt K n x j) → k + 1 ≤ fuel →
      newtonLoop K n fuel x false =
        some ((nStep K n)^[k + 2] x, dPdx K n ((nStep K n)^[k + 1] x), k + 2) := by
  intro k
  induction k with
  | zero =>
    intro x fuel hc _ hfuel
    obtain ⟨f, rfl⟩ : ∃ f, fuel = f + 1 := ⟨fuel - 1, by omega⟩
    have hd : decide (|x - nStep K n x| ≤ glEps K) = true :=
      decide_eq_true ((convAt_zero K n x).mp hc)
    simp [newtonLoop, hd, newtonLoop_break, Function.iterate_succ_apply,
      Function.iterate_zero_apply]
  | succ k ih =>
    intro x fuel hc hmin hfuel
    obtain ⟨f, rfl⟩ : ∃ f, fuel = f + 1 := ⟨fuel - 1, by omega⟩
    have h0 : ¬ convAt K n x 0 := hmin 0 (Nat.succ_pos k)
    have hd : decide (|x - nStep K n x| ≤ glEps K) = false :=
      decide_eq_false (fun h => h0 ((convAt_zero K n x).mpr h))
    have hc2 : convAt K n (nStep K n x) k := (convAt_shift K n x k).mpr hc
    have hmin2 : ∀ j, j < k → ¬ convAt K n (nStep K n x) j := by
      intro j hj h
      exact hmin (j + 1) (by omega) ((convAt_shift K n x j).mp h)
    have hrec := ih (nStep K n x) f hc2 hmin2 (by omega)
    simp [newtonLoop, hd, hrec, Function.iterate_succ_apply]

/-- The loop exhausts its fuel (modelling the `UTIL_ASSERT(++j<100)`
failure) exactly when no pass within the fuel observes `|dx| <= eps`. -/
lemma newtonLoop_none_iff (n : ℕ) :
    ∀ (fuel : ℕ) (x : K),
      newtonLoop K n fuel x false = none ↔ ∀ p, p < fuel → ¬ convAt K n x p := by
  intro fuel
  induction fuel with
  | zero => intro x; simp [newtonLoop]
  | succ f ih =>
    intro x
    by_cases h0 : convAt K n x 0
    · have hd : decide (|x - nStep K n x| ≤ glEps K) = true :=
        decide_eq_true ((convAt_zero K n x).mp h0)
      simp only [newtonLoop, hd, if_false, Bool.false_eq_true, newtonLoop_break]
      constructor
      · intro h; simp at h
      · intro h; exact absurd h0 (h 0 (Nat.succ_pos f))
    · have hd : decide (|x - nStep K n x| ≤ glEps K) = false :=
        decide_eq_false (fun h => h0 ((convAt_zero K n x).mpr h))
      simp only [newtonLoop, hd, if_false, Bool.false_eq_true,
        Option.map_eq_none', ih (nStep K n x)]
      constructor
      · intro h p hp
        match p with
        | 0 => exact h0
        | q + 1 => exact fun hq => h q (by omega) ((convAt_shift K n x q).mp hq)
      · intro h p hp hq
        exact h (p + 1) (by omega) ((convAt_shift K n x p).mpr hq)

/-- C1: in the Newton iteration of `gauss_legendre_tbl` the update
`x1 = x0 - P(x0)/(dP/dx)` is applied unconditionally on every pass, and the
loop terminates only on the pass immediately following the first pass on
which `|dx| <= 3e-14` was observed: if the `(k+1)`-st pass (computing the
`(k+1)`-st iterate) is the first to observe convergence and it lies within
the assertion budget, the loop runs exactly `k+2` passes and publishes the
`(k+2)`-nd iterate — exactly one additional refinement step beyond the
iterate whose delta satisfied the threshold.  Stated over `ℚ` (exact
arithmetic) for an arbitrary seed `x0`, since the loop body is purely
rational in the current iterate. -/
theorem newton_one_extra_refinement (n k : ℕ) (x0 : ℚ)
    (hc : convAt ℚ n x0 k) (hmin : ∀ j, j < k → ¬ convAt ℚ n x0 j)
    (hbudget : k ≤ 98) :
    newtonRun ℚ n x0 =
      some ((nStep ℚ n)^[k + 2] x0, dPdx ℚ n ((nStep ℚ n)^[k + 1] x0), k + 2) :=
  newtonLoop_first_conv ℚ n k x0 99 hc hmin (by omega)

theorem newton_one_extra_refinement_w :
    convAt ℚ 1 0 0 ∧
      newtonRun ℚ 1 0 =
        some ((nStep ℚ 1)^[0 + 2] 0, dPdx ℚ 1 ((nStep ℚ 1)^[0 + 1] 0), 0 + 2) := by
  have hc : convAt ℚ 1 0 0 := by norm_num [convAt, nStep, dPdx, legPair, glEps]
  exact ⟨hc, newton_one_extra_refinement 1 0 0 hc (fun j hj => by omega) (by omega)⟩

/-- C2: the node loop of `gauss_legendre_tbl` raises the convergence
assertion (`UTIL_ASSERT(++j<100,"convergence problem")`, modelled as
`none`) exactly when finishing normally would take more than 100 passes,
i.e. when no pass among the 99 that reach the assertion observes
`|dx| <= 3e-14`; whenever convergence is observed within that budget the
loop returns a value and no error is raised.  Stated over `ℚ` for an
arbitrary seed, one node at a time. -/
theorem newton_pass_budget (n : ℕ) (x0 : ℚ) (_hn : 1 ≤ n) :
    newtonRun ℚ n x0 = none ↔ ∀ p, p ≤ 98 → ¬ convAt ℚ n x0 p := by
  rw [newtonRun, newtonLoop_none_iff]
  constructor <;> intro h p hp <;> exact h p (by omega)

theorem newton_pass_budget_w :
    1 ≤ 1 ∧ convAt ℚ 1 0 0 ∧ newtonRun ℚ 1 0 ≠ none := by
  have hc : convAt ℚ 1 0 0 := by norm_num [convAt, nStep, dPdx, legPair, glEps]
  exact ⟨le_rfl, hc, fun h => (newton_pass_budget 1 0 le_rfl).mp h 0 (by omega) hc⟩

/-- C8: `sharp_make_healpix_geom_info` produces exactly the same geometry
as `sharp_make_weighted_healpix_geom_info` applied to a weight array of
length `2*nside` whose entries are all 1: the convenience entry point
allocates exactly that array and delegates, so every ring's theta, nphi,
phi0, offset, stride and weight coincide. -/
theorem healpix_default_weights_refinement (nside : ℕ) (stride : ℤ) :
    makeHealpixGeomInfo nside stride =
      makeWeightedHealpixGeomInfo nside stride (List.replicate (2 * nside) 1) :=
  rfl

/-- C4: `sharp_make_ecp_geom_info` fails with its parity assertion
(ConfigError) whenever `nrings` is odd, `sharp_make_hw_geom_info` fails
whenever `nrings` is even, and in both failure cases no geometry — partial
or otherwise — is returned: the result is the error value, never
`Except.ok`. -/
theorem parity_config_errors (nrings nphi ppring : ℕ) (phi0 : ℝ)
    (strideLon strideLat : ℤ) :
    (nrings % 2 = 1 →
      makeEcpGeomInfo nrings nphi phi0 strideLon strideLat =
          Except.error ConfigError.parity ∧
        ∀ g, makeEcpGeomInfo nrings nphi phi0 strideLon strideLat ≠ Except.ok g) ∧
    (nrings % 2 = 0 →
      makeHwGeomInfo nrings ppring phi0 strideLon strideLat =
          Except.error ConfigError.parity ∧
        ∀ g, makeHwGeomInfo nrings ppring phi0 strideLon strideLat ≠ Except.ok g) := by
  constructor
  · intro hodd
    have h : ¬ (nrings % 2 = 0) := by omega
    rw [makeEcpGeomInfo, if_neg h]
    exact ⟨rfl, fun g hg => Except.noConfusion hg⟩
  · intro heven
    have h : ¬ (nrings % 2 = 1) := by omega
    rw [makeHwGeomInfo, if_neg h]
    exact ⟨rfl, fun g hg => Except.noConfusion hg⟩

theorem parity_config_errors_w :
    makeEcpGeomInfo 5 4 0 1 1 = Except.error ConfigError.parity ∧
      makeHwGeomInfo 6 4 0 1 1 = Except.error ConfigError.parity :=
  ⟨((parity_config_errors 5 4 4 0 1 1).1 (by norm_num)).1,
   ((parity_config_errors 6 4 4 0 1 1).2 (by norm_num)).1⟩

lemma list_range_map_sum (k : ℕ) (f : ℕ → ℕ) :
    ((List.range k).map f).sum = ∑ m ∈ Finset.range k, f m := by
  induction k with
  | zero => simp
  | succ k ih =>
    rw [List.range_succ, List.map_append, List.sum_append, Finset.sum_range_succ, ih]
    simp

lemma sum_four_succ (k : ℕ) :
    ∑ m ∈ Finset.range k, 4 * (m + 1) = 2 * k * (k + 1) := by
  induction k with
  | zero => simp
  | succ k ih => rw [Finset.sum_range_succ, ih]; ring

lemma hpNorthring_north (n m : ℕ) (h : m + 1 ≤ 2 * n) :
    hpNorthring n m = m + 1 := by
  unfold hpNorthring; rw [if_neg (by omega)]

lemma hpNorthring_south (n m : ℕ) (h : 2 * n < m + 1) :
    hpNorthring n m = 4 * n - (m + 1) := by
  unfold hpNorthring; rw [if_pos (by omega)]

/-- The total pixel count of the HEALPix ring layout: summing `nph` over
all `4*nside-1` rings gives `12*nside^2`. -/
lemma hpNph_sum (n : ℕ) (hn : 1 ≤ n) :
    ∑ m ∈ Finset.range (4 * n - 1), hpNph n m = 12 * n ^ 2 := by
  obtain ⟨p, rfl⟩ : ∃ p, n = p + 1 := ⟨n - 1, by omega⟩
  have hr : 4 * (p + 1) - 1 = 4 * p + 3 := by omega
  rw [hr, Finset.range_eq_Ico,
    ← Finset.sum_Ico_consecutive _ (by omega : 0 ≤ p) (by omega : p ≤ 4 * p + 3),
    ← Finset.sum_Ico_consecutive _ (by omega : p ≤ 3 * p + 3) (by omega : 3 * p + 3 ≤ 4 * p + 3)]
  have hcap : ∑ m ∈ Finset.Ico 0 p, hpNph (p + 1) m =
      ∑ m ∈ Finset.Ico 0 p, 4 * (m + 1) := by
    refine Finset.sum_congr rfl (fun m hm => ?_)
    rw [Finset.mem_Ico] at hm
    have e : hpNorthring (p + 1) m = m + 1 := hpNorthring_north _ _ (by omega)
    unfold hpNph
    rw [e, if_pos (by omega)]
  have hbelt : ∑ m ∈ Finset.Ico p (3 * p + 3), hpNph (p + 1) m =
      ∑ m ∈ Finset.Ico p (3 * p + 3), 4 * (p + 1) := by
    refine Finset.sum_congr rfl (fun m hm => ?_)
    rw [Finset.mem_Ico] at hm
    unfold hpNph
    rcases le_or_lt (m + 1) (2 * (p + 1)) with hn2 | hn2
    · rw [hpNorthring_north _ _ hn2, if_neg (by omega)]
    · rw [hpNorthring_south _ _ hn2, if_neg (by omega)]
  have hscap : ∑ m ∈ Finset.Ico (3 * p + 3) (4 * p + 3), hpNph (p + 1) m =
      ∑ i ∈ Finset.range p, 4 * (i + 1) := by
    rw [Finset.sum_Ico_eq_sum_range]
    have hlen : 4 * p + 3 - (3 * p + 3) = p := by omega
    rw [hlen, ← Finset.sum_range_reflect (fun i => 4 * (i + 1)) p]
    refine Finset.sum_congr rfl (fun i hi => ?_)
    rw [Finset.mem_range] at hi
    have e : hpNorthring (p + 1) (3 * p + 3 + i) = p - i := by
      rw [hpNorthring_south _ _ (by omega)]; omega
    unfold hpNph
    rw [e, if_pos (by omega)]
    omega
  rw [hcap, hbelt, hscap, ← Finset.range_eq_Ico, sum_four_succ,
    Finset.sum_const, Nat.card_Ico, smul_eq_mul]
  have h1 : 3 * p + 3 - p = 2 * p + 3 := by omega
  rw [h1]; ring

/-- C5: for every `nside >= 1` the weighted HEALPix builder produces
exactly `4*nside-1` ring descriptors whose `nphi` values sum to the total
pixel count `12*nside^2`, with `nphi = 4*northring` on polar-cap rings
(`northring < nside`) and `nphi = 4*nside` on equatorial-belt rings. -/
theorem healpix_ring_count_and_pixsum (nside : ℕ) (hn : 1 ≤ nside)
    (stride : ℤ) (w : List ℝ) :
    (makeWeightedHealpixGeomInfo nside stride w).length = 4 * nside - 1 ∧
    ((makeWeightedHealpixGeomInfo nside stride w).map (fun d => d.nphi)).sum =
      12 * nside ^ 2 ∧
    ∀ m, m < 4 * nside - 1 →
      (hpNorthring nside m < nside → hpNph nside m = 4 * hpNorthring nside m) ∧
      (nside ≤ hpNorthring nside m → hpNph nside m = 4 * nside) := by
  refine ⟨by simp [makeWeightedHealpixGeomInfo], ?_, ?_⟩
  · rw [makeWeightedHealpixGeomInfo, List.map_map]
    have : ((fun d : RingDescriptor => d.nphi) ∘ fun m =>
        ({ theta := hpTheta nside m, nphi := hpNph nside m,
           phi0 := hpPhi0 nside m, ofs := hpOfs nside stride m,
           stride := stride, weight := hpWeight nside m w } : RingDescriptor)) =
        fun m => hpNph nside m := rfl
    rw [this, list_range_map_sum, hpNph_sum nside hn]
  · intro m _
    constructor
    · intro h; rw [hpNph, if_pos h]
    · intro h; rw [hpNph, if_neg (by omega)]

theorem healpix_ring_count_and_pixsum_w :
    1 ≤ 1 ∧ (makeWeightedHealpixGeomInfo 1 1 [1, 1]).length = 4 * 1 - 1 ∧
      ((makeWeightedHealpixGeomInfo 1 1 [1, 1]).map (fun d => d.nphi)).sum =
        12 * 1 ^ 2 :=
  ⟨le_rfl, (healpix_ring_count_and_pixsum 1 le_rfl 1 [1, 1]).1,
    (healpix_ring_count_and_pixsum 1 le_rfl 1 [1, 1]).2.1⟩

/-! Evaluation of the HEALPix offsets at stride 1, one lemma per region. -/

lemma hpNph_north_cap (n m : ℕ) (h1 : m + 1 ≤ 2 * n) (h2 : m + 1 < n) :
    hpNph n m = 4 * (m + 1) := by
  unfold hpNph; rw [hpNorthring_north n m h1, if_pos h2]

lemma hpNph_north_belt (n m : ℕ) (h1 : m + 1 ≤ 2 * n) (h2 : n ≤ m + 1) :
    hpNph n m = 4 * n := by
  unfold hpNph; rw [hpNorthring_north n m h1, if_neg (by omega)]

lemma hpNph_south_belt (n m : ℕ) (h1 : 2 * n < m + 1) (h2 : m + 1 ≤ 3 * n) :
    hpNph n m = 4 * n := by
  unfold hpNph; rw [hpNorthring_south n m h1, if_neg (by omega)]

lemma hpNph_cast_sc (n m : ℕ) (h1 : 2 * n < m + 1) (h2 : 3 * n < m + 1)
    (h3 : m + 1 ≤ 4 * n) :
    (hpNph n m : ℤ) = 4 * (4 * (n : ℤ) - ((m : ℤ) + 1)) := by
  have hcond : hpNorthring n m < n := by rw [hpNorthring_south n m h1]; omega
  unfold hpNph
  rw [if_pos hcond, hpNorthring_south n m h1, Nat.cast_mul, Nat.cast_sub h3]
  push_cast; ring

lemma hpOfs_eval_nc (n m : ℕ) (h1 : m + 1 ≤ 2 * n) (h2 : m + 1 < n) :
    hpOfs n 1 m = 2 * ((m : ℤ) + 1) * (m : ℤ) := by
  have e := hpNorthring_north n m h1
  unfold hpOfs hpOfsNorth
  rw [if_neg (by omega), e, if_pos (by omega)]
  push_cast; ring

lemma hpOfs_eval_nb (n m : ℕ) (h1 : m + 1 ≤ 2 * n) (h2 : n ≤ m + 1) :
    hpOfs n 1 m =
      2 * (n : ℤ) * ((n : ℤ) - 1) + (((m : ℤ) + 1) - (n : ℤ)) * (4 * (n : ℤ)) := by
  have e := hpNorthring_north n m h1
  unfold hpOfs hpOfsNorth
  rw [if_neg (by omega), e, if_neg (by omega), hpNph_north_belt n m h1 h2]
  push_cast; ring

lemma hpOfs_eval_sb (n m : ℕ) (h1 : 2 * n < m + 1) (h2 : m + 1 ≤ 3 * n)
    (h3 : m + 1 ≤ 4 * n) :
    hpOfs n 1 m =
      (12 * (n : ℤ) ^ 2 - 4 * (n : ℤ)) -
        (2 * (n : ℤ) * ((n : ℤ) - 1) +
          ((4 * (n : ℤ) - ((m : ℤ) + 1)) - (n : ℤ)) * (4 * (n : ℤ))) := by
  have hcond : ¬ hpNorthring n m < n := by rw [hpNorthring_south n m h1]; omega
  have ez : (hpNorthring n m : ℤ) = 4 * (n : ℤ) - ((m : ℤ) + 1) := by
    rw [hpNorthring_south n m h1, Nat.cast_sub h3]; push_cast; ring
  have enph := hpNph_south_belt n m h1 h2
  unfold hpOfs hpOfsNorth
  rw [if_pos (by omega), if_neg hcond, enph, ez]
  push_cast; ring

lemma hpOfs_eval_sc (n m : ℕ) (_hn : 1 ≤ n) (h1 : 2 * n < m + 1)
    (h2 : 3 * n < m + 1) (h3 : m + 1 ≤ 4 * n) :
    hpOfs n 1 m =
      12 * (n : ℤ) ^ 2 - 4 * (4 * (n : ℤ) - ((m : ℤ) + 1)) -
        2 * (4 * (n : ℤ) - ((m : ℤ) + 1)) * ((4 * (n : ℤ) - ((m : ℤ) + 1)) - 1) := by
  have hcond : hpNorthring n m < n := by rw [hpNorthring_south n m h1]; omega
  have ez : (hpNorthring n m : ℤ) = 4 * (n : ℤ) - ((m : ℤ) + 1) := by
    rw [hpNorthring_south n m h1, Nat.cast_sub h3]; push_cast; ring
  unfold hpOfs hpOfsNorth
  rw [if_pos (by omega), if_pos hcond, hpNph_cast_sc n m h1 h2 h3, ez]
  ring

/-- Consecutive rings occupy consecutive pixel blocks: at stride 1, the
offset of ring `m+1` is the offset of ring `m` plus its pixel count. -/
lemma hpOfs_step (n : ℕ) (hn : 1 ≤ n) (m : ℕ) (hm : m + 1 < 4 * n - 1) :
    hpOfs n 1 (m + 1) = hpOfs n 1 m + (hpNph n m : ℤ) := by
  by_cases hA : m + 2 ≤ 2 * n
  · by_cases hB : m + 2 < n
    · rw [hpOfs_eval_nc n (m + 1) (by omega) (by omega),
        hpOfs_eval_nc n m (by omega) (by omega),
        hpNph_north_cap n m (by omega) (by omega)]
      push_cast; ring
    · by_cases hC : m + 1 < n
      · obtain rfl : n = m + 2 := by omega
        rw [hpOfs_eval_nb (m + 2) (m + 1) (by omega) (by omega),
          hpOfs_eval_nc (m + 2) m (by omega) (by omega),
          hpNph_north_cap (m + 2) m (by omega) (by omega)]
        push_cast; ring
      · rw [hpOfs_eval_nb n (m + 1) (by omega) (by omega),
          hpOfs_eval_nb n m (by omega) (by omega),
          hpNph_north_belt n m (by omega) (by omega)]
        push_cast; ring
  · by_cases hD : m + 1 ≤ 2 * n
    · rw [hpOfs_eval_sb n (m + 1) (by omega) (by omega) (by omega),
        hpOfs_eval_nb n m (by omega) (by omega),
        hpNph_north_belt n m (by omega) (by omega)]
      push_cast; ring
    · by_cases hE : m + 2 ≤ 3 * n
      · rw [hpOfs_eval_sb n (m + 1) (by omega) (by omega) (by omega),
          hpOfs_eval_sb n m (by omega) (by omega) (by omega),
          hpNph_south_belt n m (by omega) (by omega)]
        push_cast; ring
      · by_cases hF : m + 1 ≤ 3 * n
        · obtain ⟨p, rfl⟩ : ∃ p, n = p + 1 := ⟨n - 1, by omega⟩
          obtain rfl : m = 3 * p + 2 := by omega
          rw [hpOfs_eval_sc (p + 1) (3 * p + 3) (by omega) (by omega) (by omega)
              (by omega),
            hpOfs_eval_sb (p + 1) (3 * p + 2) (by omega) (by omega) (by omega),
            hpNph_south_belt (p + 1) (3 * p + 2) (by omega) (by omega)]
          push_cast; ring
        · rw [hpOfs_eval_sc n (m + 1) hn (by omega) (by omega) (by omega),
            hpOfs_eval_sc n m hn (by omega) (by omega) (by omega),
            hpNph_cast_sc n m (by omega) (by omega) (by omega)]
          push_cast; ring

lemma hpOfs_zero (n : ℕ) (hn : 1 ≤ n) : hpOfs n 1 0 = 0 := by
  by_cases h2 : 0 + 1 < n
  · rw [hpOfs_eval_nc n 0 (by omega) h2]; norm_num
  · obtain rfl : n = 1 := by omega
    rw [hpOfs_eval_nb 1 0 (by omega) (by omega)]; norm_num

/-- At stride 1 the offset of ring `m` is the number of pixels on the
rings before it. -/
lemma hpOfs_prefix_sum (n : ℕ) (hn : 1 ≤ n) :
    ∀ m, m < 4 * n - 1 →
      hpOfs n 1 m = ((∑ j ∈ Finset.range m, hpNph n j : ℕ) : ℤ) := by
  intro m
  induction m with
  | zero => intro _; simpa using hpOfs_zero n hn
  | succ m ih =>
    intro hm
    rw [hpOfs_step n hn m hm, ih (by omega), Finset.sum_range_succ]
    push_cast; ring

lemma hpOfs_mono (n : ℕ) (hn : 1 ≤ n) (m1 m2 : ℕ) (h1 : m1 < m2)
    (h2 : m2 < 4 * n - 1) :
    hpOfs n 1 m1 + (hpNph n m1 : ℤ) ≤ hpOfs n 1 m2 := by
  rw [hpOfs_prefix_sum n hn m1 (by omega), hpOfs_prefix_sum n hn m2 h2]
  have h := Finset.sum_le_sum_of_subset
    (Finset.range_subset.mpr (by omega : m1 + 1 ≤ m2) :
      Finset.range (m1 + 1) ⊆ Finset.range m2) (f := hpNph n)
  rw [Finset.sum_range_succ] at h
  exact_mod_cast h

lemma hpOfs_upper (n : ℕ) (hn : 1 ≤ n) (m : ℕ) (hm : m < 4 * n - 1) :
    hpOfs n 1 m + (hpNph n m : ℤ) ≤ 12 * (n : ℤ) ^ 2 := by
  rw [hpOfs_prefix_sum n hn m hm]
  have h := Finset.sum_le_sum_of_subset
    (Finset.range_subset.mpr (by omega : m + 1 ≤ 4 * n - 1) :
      Finset.range (m + 1) ⊆ Finset.range (4 * n - 1)) (f := hpNph n)
  rw [Finset.sum_range_succ, hpNph_sum n hn] at h
  exact_mod_cast h

/-- Any position below a sum of blocks lies inside exactly one block. -/
lemma exists_prefix_block (f : ℕ → ℕ) :
    ∀ (N x : ℕ), x < ∑ j ∈ Finset.range N, f j →
      ∃ m, m < N ∧ ∑ j ∈ Finset.range m, f j ≤ x ∧
        x < ∑ j ∈ Finset.range m, f j + f m := by
  intro N
  induction N with
  | zero => intro x hx; simp at hx
  | succ N ih =>
    intro x hx
    by_cases h : x < ∑ j ∈ Finset.range N, f j
    · obtain ⟨m, hm, ha, hb⟩ := ih x h
      exact ⟨m, by omega, ha, hb⟩
    · refine ⟨N, by omega, by omega, ?_⟩
      rwa [Finset.sum_range_succ] at hx

/-- C10: for `stride = 1` the per-ring pixel intervals
`[ofs[m], ofs[m]+nph[m])` of the HEALPix builder are pairwise disjoint
and their union is exactly `[0, 12*nside^2)`: the cap, belt and mirrored
southern offsets tile the full pixel range without gap or overlap. -/
theorem healpix_offsets_tile (n : ℕ) (hn : 1 ≤ n) :
    (∀ m1 m2, m1 < 4 * n - 1 → m2 < 4 * n - 1 → m1 ≠ m2 →
      Disjoint (Finset.Ico (hpOfs n 1 m1) (hpOfs n 1 m1 + (hpNph n m1 : ℤ)))
        (Finset.Ico (hpOfs n 1 m2) (hpOfs n 1 m2 + (hpNph n m2 : ℤ)))) ∧
    (Finset.range (4 * n - 1)).biUnion
        (fun m => Finset.Ico (hpOfs n 1 m) (hpOfs n 1 m + (hpNph n m : ℤ))) =
      Finset.Ico (0 : ℤ) (12 * (n : ℤ) ^ 2) := by
  constructor
  · have key : ∀ m1 m2, m1 < m2 → m2 < 4 * n - 1 →
        Disjoint (Finset.Ico (hpOfs n 1 m1) (hpOfs n 1 m1 + (hpNph n m1 : ℤ)))
          (Finset.Ico (hpOfs n 1 m2) (hpOfs n 1 m2 + (hpNph n m2 : ℤ))) := by
      intro m1 m2 h1 h2
      rw [Finset.disjoint_left]
      intro a ha hb
      rw [Finset.mem_Ico] at ha hb
      have := hpOfs_mono n hn m1 m2 h1 h2
      omega
    intro m1 m2 h1 h2 hne
    rcases lt_or_gt_of_ne hne with h | h
    · exact key m1 m2 h h2
    · exact (key m2 m1 h h1).symm
  · ext x
    simp only [Finset.mem_biUnion, Finset.mem_range, Finset.mem_Ico]
    constructor
    · rintro ⟨m, hm, h1, h2⟩
      have h0 : (0 : ℤ) ≤ hpOfs n 1 m := by
        rw [hpOfs_prefix_sum n hn m hm]; positivity
      have hub := hpOfs_upper n hn m hm
      omega
    · rintro ⟨h0, hx⟩
      have hy : x.toNat < ∑ j ∈ Finset.range (4 * n - 1), hpNph n j := by
        rw [hpNph_sum n hn]
        have : (x.toNat : ℤ) < ((12 * n ^ 2 : ℕ) : ℤ) := by
          rw [Int.toNat_of_nonneg h0]; push_cast; exact hx
        exact_mod_cast this
      obtain ⟨m, hm, ha, hb⟩ := exists_prefix_block (hpNph n) (4 * n - 1) x.toNat hy
      refine ⟨m, hm, ?_, ?_⟩
      · rw [hpOfs_prefix_sum n hn m hm]
        have : ((∑ j ∈ Finset.range m, hpNph n j : ℕ) : ℤ) ≤ (x.toNat : ℤ) :=
          Nat.cast_le.mpr ha
        rwa [Int.toNat_of_nonneg h0] at this
      · rw [hpOfs_prefix_sum n hn m hm]
        have : (x.toNat : ℤ) <
            ((∑ j ∈ Finset.range m, hpNph n j : ℕ) : ℤ) + (hpNph n m : ℤ) := by
          exact_mod_cast hb
        rwa [Int.toNat_of_nonneg h0] at this

theorem healpix_offsets_tile_w :
    1 ≤ 1 ∧
      (Finset.range (4 * 1 - 1)).biUnion
          (fun m => Finset.Ico (hpOfs 1 1 m) (hpOfs 1 1 m + (hpNph 1 m : ℤ))) =
        Finset.Ico (0 : ℤ) (12 * ((1 : ℕ) : ℤ) ^ 2) :=
  ⟨le_rfl, (healpix_offsets_tile 1 le_rfl).2⟩

/-! ## Driscoll-Healy theta and weights -/

lemma fdiv_zero (a : ℝ) : fdiv a 0 = none := if_pos rfl

lemma fdiv_of_ne (a b : ℝ) (h : b ≠ 0) : fdiv a b = some (a / b) := if_neg h

/-- C6 counterexample: at `nrings = 1` (odd, accepted by the parity
assertion) the theta formula divides by zero (`nrings - 1. = 0`), so the
first ring's theta is non-finite (NaN) — not a value strictly inside
`(0, pi)` — and this ring is handed to the assembler. -/
theorem hw_theta_nrings_one_cex :
    hwTheta 1 0 = none ∧
    (makeHwGeomInfo 1 1 0 1 1).toOption ≠ none ∧
    ((makeHwGeomInfo 1 1 0 1 1).toOption.getD []).headI.theta = none := by
  have h1 : hwTheta 1 0 = none := by
    unfold hwTheta
    norm_num [fdiv]
  refine ⟨h1, ?_, ?_⟩
  · rw [makeHwGeomInfo, if_pos (by norm_num)]
    simp [Except.toOption]
  · rw [makeHwGeomInfo, if_pos (by norm_num)]
    simpa [Except.toOption, List.range_succ] using h1

/-- Unfolding `hwTheta` when the denominator is nonzero. -/
lemma hwTheta_eval (nrings m : ℕ) (h : (nrings : ℝ) - 1 ≠ 0) :
    hwTheta nrings m = some
      (if (if Real.pi * (m : ℝ) / ((nrings : ℝ) - 1) < 1e-15 then (1e-15 : ℝ)
           else Real.pi * (m : ℝ) / ((nrings : ℝ) - 1)) > Real.pi - 1e-15
       then Real.pi - 1e-15
       else if Real.pi * (m : ℝ) / ((nrings : ℝ) - 1) < 1e-15 then (1e-15 : ℝ)
            else Real.pi * (m : ℝ) / ((nrings : ℝ) - 1)) := by
  unfold hwTheta
  rw [fdiv_of_ne _ _ h]
  rfl

/-- C6 (amended: `nrings >= 3`; at `nrings = 1` the formula divides by
zero, see the counterexample): for every odd `nrings >= 3` the builder
sets `theta[m] = pi*m/(nrings-1)` clamped into `[1e-15, pi-1e-15]`, so
every ring's theta lies strictly inside `(0, pi)`; for `nrings = 5` the
theta sequence is strictly increasing, has its first and last values at
the clamp bounds, and is symmetric about `pi/2`. -/
theorem hw_theta_range_amended :
    (∀ nrings m : ℕ, nrings % 2 = 1 → 3 ≤ nrings → m < nrings →
      ∃ t, hwTheta nrings m = some t ∧ 1e-15 ≤ t ∧ t ≤ Real.pi - 1e-15 ∧
        0 < t ∧ t < Real.pi) ∧
    (∀ (m : ℕ) (a b : ℝ), m < 4 → hwTheta 5 m = some a →
      hwTheta 5 (m + 1) = some b → a < b) ∧
    hwTheta 5 0 = some 1e-15 ∧
    hwTheta 5 4 = some (Real.pi - 1e-15) ∧
    (∀ (m : ℕ) (a b : ℝ), m ≤ 4 → hwTheta 5 m = some a →
      hwTheta 5 (4 - m) = some b → a + b = Real.pi) := by
  have hpi := Real.pi_gt_three
  have h5 : ((5 : ℕ) : ℝ) - 1 ≠ 0 := by norm_num
  have hv0 : Real.pi * ((0 : ℕ) : ℝ) / (((5 : ℕ) : ℝ) - 1) = 0 := by push_cast; ring
  have hv1 : Real.pi * ((1 : ℕ) : ℝ) / (((5 : ℕ) : ℝ) - 1) = Real.pi / 4 := by
    push_cast; ring
  have hv2 : Real.pi * ((2 : ℕ) : ℝ) / (((5 : ℕ) : ℝ) - 1) = Real.pi / 2 := by
    push_cast; ring
  have hv3 : Real.pi * ((3 : ℕ) : ℝ) / (((5 : ℕ) : ℝ) - 1) = Real.pi * 3 / 4 := by
    push_cast; ring
  have hv4 : Real.pi * ((4 : ℕ) : ℝ) / (((5 : ℕ) : ℝ) - 1) = Real.pi := by
    push_cast; ring
  have e0 : hwTheta 5 0 = some 1e-15 := by
    rw [hwTheta_eval 5 0 h5, hv0, if_pos (show (0 : ℝ) < 1e-15 by norm_num),
      if_neg (show ¬ ((1e-15 : ℝ) > Real.pi - 1e-15) by nlinarith)]
  have e1 : hwTheta 5 1 = some (Real.pi / 4) := by
    rw [hwTheta_eval 5 1 h5, hv1,
      if_neg (show ¬ (Real.pi / 4 < 1e-15) by nlinarith),
      if_neg (show ¬ (Real.pi / 4 > Real.pi - 1e-15) by nlinarith)]
  have e2 : hwTheta 5 2 = some (Real.pi / 2) := by
    rw [hwTheta_eval 5 2 h5, hv2,
      if_neg (show ¬ (Real.pi / 2 < 1e-15) by nlinarith),
      if_neg (show ¬ (Real.pi / 2 > Real.pi - 1e-15) by nlinarith)]
  have e3 : hwTheta 5 3 = some (Real.pi * 3 / 4) := by
    rw [hwTheta_eval 5 3 h5, hv3,
      if_neg (show ¬ (Real.pi * 3 / 4 < 1e-15) by nlinarith),
      if_neg (show ¬ (Real.pi * 3 / 4 > Real.pi - 1e-15) by nlinarith)]
  have e4 : hwTheta 5 4 = some (Real.pi - 1e-15) := by
    rw [hwTheta_eval 5 4 h5, hv4,
      if_neg (show ¬ (Real.pi < 1e-15) by nlinarith),
      if_pos (show Real.pi > Real.pi - 1e-15 by nlinarith)]
  refine ⟨?_, ?_, e0, e4, ?_⟩
  · intro nrings m hodd h3 _
    have hd : (nrings : ℝ) - 1 ≠ 0 := by
      have : (3 : ℝ) ≤ (nrings : ℝ) := by exact_mod_cast h3
      intro h; linarith
    rw [hwTheta_eval nrings m hd]
    refine ⟨_, rfl, ?_⟩
    set v := Real.pi * (m : ℝ) / ((nrings : ℝ) - 1) with hv
    by_cases hA : v < 1e-15
    · rw [if_pos hA,
        if_neg (show ¬ ((1e-15 : ℝ) > Real.pi - 1e-15) by nlinarith)]
      exact ⟨le_rfl, by nlinarith, by norm_num, by nlinarith⟩
    · rw [if_neg hA]
      by_cases hB : v > Real.pi - 1e-15
      · rw [if_pos hB]
        exact ⟨by nlinarith, le_rfl, by nlinarith, by nlinarith⟩
      · rw [if_neg hB]
        rw [not_lt] at hA hB
        exact ⟨hA, hB, by nlinarith, by nlinarith⟩
  · intro m a b hm ha hb
    interval_cases m
    · rw [e0] at ha; rw [e1] at hb
      simp only [Option.some.injEq] at ha hb
      subst ha; subst hb; nlinarith
    · rw [e1] at ha; rw [e2] at hb
      simp only [Option.some.injEq] at ha hb
      subst ha; subst hb; nlinarith
    · rw [e2] at ha; rw [e3] at hb
      simp only [Option.some.injEq] at ha hb
      subst ha; subst hb; nlinarith
    · rw [e3] at ha; rw [e4] at hb
      simp only [Option.some.injEq] at ha hb
      subst ha; subst hb; nlinarith
  · intro m a b hm ha hb
    interval_cases m
    · rw [e0] at ha; rw [show (4 : ℕ) - 0 = 4 from rfl, e4] at hb
      simp only [Option.some.injEq] at ha hb
      subst ha; subst hb; ring
    · rw [e1] at ha; rw [show (4 : ℕ) - 1 = 3 from rfl, e3] at hb
      simp only [Option.some.injEq] at ha hb
      subst ha; subst hb; ring
    · rw [e2] at ha; rw [show (4 : ℕ) - 2 = 2 from rfl, e2] at hb
      simp only [Option.some.injEq] at ha hb
      subst ha; subst hb; ring
    · rw [e3] at ha; rw [show (4 : ℕ) - 3 = 1 from rfl, e1] at hb
      simp only [Option.some.injEq] at ha hb
      subst ha; subst hb; ring
    · rw [e4] at ha; rw [show (4 : ℕ) - 4 = 0 from rfl, e0] at hb
      simp only [Option.some.injEq] at ha hb
      subst ha; subst hb; ring

theorem hw_theta_range_amended_w :
    3 % 2 = 1 ∧ (3 : ℕ) ≤ 3 ∧ (0 : ℕ) < 3 ∧
      ∃ t, hwTheta 3 0 = some t ∧ 1e-15 ≤ t ∧ t ≤ Real.pi - 1e-15 ∧
        0 < t ∧ t < Real.pi :=
  ⟨rfl, le_rfl, by norm_num,
    hw_theta_range_amended.1 3 0 rfl le_rfl (by norm_num)⟩

lemma eps_nonneg (j J : ℕ) : 0 ≤ eps j J := by
  unfold eps; split_ifs <;> norm_num

lemma eps_le_one (j J : ℕ) : eps j J ≤ 1 := by
  unfold eps; split_ifs <;> norm_num

lemma osum_eq_sum (f : ℕ → Option ℝ) (g : ℕ → ℝ) :
    ∀ k, (∀ l, l < k → f l = some (g l)) →
      osum f k = some (∑ l ∈ Finset.range k, g l) := by
  intro k
  induction k with
  | zero => intro _; simp [osum]
  | succ k ih =>
    intro h
    rw [osum, ih (fun l hl => h l (by omega)), h k (by omega)]
    simp [Finset.sum_range_succ]

/-- Telescoping sum `sum 1/((2l+1)(2l+3)) = (1/2)(1 - 1/(2L+1))`. -/
lemma inv_prod_telescope (L : ℕ) :
    ∑ l ∈ Finset.range L, (1 : ℝ) / ((2 * (l : ℝ) + 1) * (2 * (l : ℝ) + 3)) =
      1 / 2 * (1 - 1 / (2 * (L : ℝ) + 1)) := by
  induction L with
  | zero => simp
  | succ L ih =>
    rw [Finset.sum_range_succ, ih]
    have h1 : (2 * (L : ℝ) + 1) ≠ 0 := by positivity
    have h2 : (2 * (L : ℝ) + 3) ≠ 0 := by positivity
    have h3 : (2 * ((L : ℝ) + 1) + 1) ≠ 0 := by positivity
    push_cast
    field_simp
    ring

/-- Strict positivity core of the Keiner-Potts weights: the cosine series
of `sharp_make_hw_geom_info` is nonnegative for every ring (its value is
at least `1/(2(2*lmax+1)) > 0`). -/
lemma hw_cos_series_nonneg (L m : ℕ) (hL : 1 ≤ L) :
    0 ≤ ∑ l ∈ Finset.range (L + 1),
      eps l L / (1 - 4 * (l : ℝ) * (l : ℝ)) *
        Real.cos (Real.pi * (m : ℝ) * (l : ℝ) / (L : ℝ)) := by
  rw [Finset.sum_range_succ']
  have h0 : eps 0 L / (1 - 4 * ((0 : ℕ) : ℝ) * ((0 : ℕ) : ℝ)) *
      Real.cos (Real.pi * (m : ℝ) * ((0 : ℕ) : ℝ) / (L : ℝ)) = 1 / 2 := by
    unfold eps
    rw [if_pos (Or.inl rfl)]
    push_cast
    norm_num
  rw [h0]
  have hbound : ∀ l ∈ Finset.range L,
      -((1 : ℝ) / ((2 * (l : ℝ) + 1) * (2 * (l : ℝ) + 3))) ≤
        eps (l + 1) L / (1 - 4 * ((l + 1 : ℕ) : ℝ) * ((l + 1 : ℕ) : ℝ)) *
          Real.cos (Real.pi * (m : ℝ) * ((l + 1 : ℕ) : ℝ) / (L : ℝ)) := by
    intro l _
    set c := Real.cos (Real.pi * (m : ℝ) * ((l + 1 : ℕ) : ℝ) / (L : ℝ)) with hc
    have hc1 : c ≤ 1 := Real.cos_le_one _
    have hc2 : -1 ≤ c := Real.neg_one_le_cos _
    have he0 := eps_nonneg (l + 1) L
    have he1 := eps_le_one (l + 1) L
    have hA : (0 : ℝ) < (2 * (l : ℝ) + 1) * (2 * (l : ℝ) + 3) := by positivity
    have hd : (1 : ℝ) - 4 * ((l + 1 : ℕ) : ℝ) * ((l + 1 : ℕ) : ℝ) =
        -((2 * (l : ℝ) + 1) * (2 * (l : ℝ) + 3)) := by push_cast; ring
    rw [hd, div_neg, neg_mul, neg_le_neg_iff]
    have hform : eps (l + 1) L / ((2 * (l : ℝ) + 1) * (2 * (l : ℝ) + 3)) * c =
        eps (l + 1) L * c / ((2 * (l : ℝ) + 1) * (2 * (l : ℝ) + 3)) := by ring
    rw [hform]
    have hec : eps (l + 1) L * c ≤ 1 := by nlinarith
    gcongr
  have hsum := Finset.sum_le_sum hbound
  rw [Finset.sum_neg_distrib, inv_prod_telescope L] at hsum
  have hp : 0 < 1 / (2 * (L : ℝ) + 1) := by positivity
  linarith

/-- Unfolding `hwWeight` when `lmax >= 1` and `ppring >= 1`: the weight is
the real value `prefac * wgt / nph`. -/
lemma hwWeight_some (nrings ppring m : ℕ) (hL : 1 ≤ (nrings - 1) / 2)
    (hp : 0 < ppring) :
    hwWeight nrings ppring m = some
      ((4 * Real.pi * eps m (2 * ((nrings - 1) / 2)) / (((nrings - 1) / 2 : ℕ) : ℝ)) *
        (∑ l ∈ Finset.range ((nrings - 1) / 2 + 1),
          eps l ((nrings - 1) / 2) / (1 - 4 * (l : ℝ) * (l : ℝ)) *
            Real.cos (Real.pi * (m : ℝ) * (l : ℝ) / (((nrings - 1) / 2 : ℕ) : ℝ))) /
        (ppring : ℝ)) := by
  have hLne : (((nrings - 1) / 2 : ℕ) : ℝ) ≠ 0 := Nat.cast_ne_zero.mpr (by omega)
  have hPne : ((ppring : ℕ) : ℝ) ≠ 0 := Nat.cast_ne_zero.mpr (by omega)
  have hterm : ∀ l, l < (nrings - 1) / 2 + 1 →
      hwWgtTerm ((nrings - 1) / 2) m l = some
        (eps l ((nrings - 1) / 2) / (1 - 4 * (l : ℝ) * (l : ℝ)) *
          Real.cos (Real.pi * (m : ℝ) * (l : ℝ) / (((nrings - 1) / 2 : ℕ) : ℝ))) := by
    intro l _
    unfold hwWgtTerm
    rw [fdiv_of_ne _ _ hLne]
    rfl
  unfold hwWeight
  rw [fdiv_of_ne _ _ hLne, Option.some_bind,
    osum_eq_sum _ _ ((nrings - 1) / 2 + 1) hterm, Option.some_bind,
    fdiv_of_ne _ _ hPne]

/-- C7 (amended: odd `nrings >= 3`; at `nrings = 1` the prefactor divides
by zero and the weight is non-finite, see the counterexample): for every
odd `nrings >= 3` and `ppring > 0`, every per-ring Keiner-Potts weight
computed by `sharp_make_hw_geom_info` and handed to the assembler is a
finite nonnegative real number. -/
theorem hw_weight_nonneg_amended (nrings ppring : ℕ) (phi0 : ℝ)
    (strideLon strideLat : ℤ) (hodd : nrings % 2 = 1) (h3 : 3 ≤ nrings)
    (hp : 0 < ppring) :
    (∀ m, ∃ wv, hwWeight nrings ppring m = some wv ∧ 0 ≤ wv) ∧
    ∀ g, makeHwGeomInfo nrings ppring phi0 strideLon strideLat = Except.ok g →
      ∀ d ∈ g, ∃ wv, d.weight = some wv ∧ 0 ≤ wv := by
  have hL : 1 ≤ (nrings - 1) / 2 := by omega
  have key : ∀ m, ∃ wv, hwWeight nrings ppring m = some wv ∧ 0 ≤ wv := by
    intro m
    refine ⟨_, hwWeight_some nrings ppring m hL hp, ?_⟩
    have hS := hw_cos_series_nonneg ((nrings - 1) / 2) m hL
    have hpre : 0 ≤ 4 * Real.pi * eps m (2 * ((nrings - 1) / 2)) /
        (((nrings - 1) / 2 : ℕ) : ℝ) := by
      apply div_nonneg
      · have := eps_nonneg m (2 * ((nrings - 1) / 2))
        have := Real.pi_pos
        nlinarith
      · positivity
    have hppos : (0 : ℝ) ≤ (ppring : ℝ) := by positivity
    exact div_nonneg (mul_nonneg hpre hS) hppos
  refine ⟨key, ?_⟩
  intro g hg d hd
  rw [makeHwGeomInfo, if_pos hodd] at hg
  injection hg with hg
  subst hg
  rw [List.mem_map] at hd
  obtain ⟨m, _, rfl⟩ := hd
  exact key m

theorem hw_weight_nonneg_amended_w :
    3 % 2 = 1 ∧ (3 : ℕ) ≤ 3 ∧ 0 < 1 ∧
      ∃ wv, hwWeight 3 1 0 = some wv ∧ 0 ≤ wv :=
  ⟨rfl, le_rfl, Nat.one_pos,
    (hw_weight_nonneg_amended 3 1 0 1 1 rfl le_rfl Nat.one_pos).1 0⟩

/-- C7 counterexample: at `nrings = 1` (odd, accepted by the parity
assertion) `lmax = 0`, the prefactor `4*pi*eps(m,0)/lmax` divides by zero,
and the first ring's weight is non-finite (not a finite nonnegative
value), yet this ring is handed to the assembler. -/
theorem hw_weight_nrings_one_cex :
    hwWeight 1 1 0 = none ∧
    (makeHwGeomInfo 1 1 0 1 1).toOption ≠ none ∧
    ((makeHwGeomInfo 1 1 0 1 1).toOption.getD []).headI.weight = none := by
  have h1 : hwWeight 1 1 0 = none := by
    unfold hwWeight
    norm_num [fdiv]
  refine ⟨h1, ?_, ?_⟩
  · rw [makeHwGeomInfo, if_pos (by norm_num)]
    simp [Except.toOption]
  · rw [makeHwGeomInfo, if_pos (by norm_num)]
    simpa [Except.toOption, List.range_succ] using h1

/-! ## phi0 across the builders -/

lemma mapM_mem_source {α β : Type} (f : α → Option β) :
    ∀ (l : List α) (g : List β), l.mapM f = some g →
      ∀ d ∈ g, ∃ a ∈ l, f a = some d := by
  intro l
  induction l with
  | nil =>
    intro g hg d hd
    simp only [List.mapM_nil, pure, Option.some.injEq] at hg
    subst hg
    simp at hd
  | cons a l ih =>
    intro g hg d hd
    rw [List.mapM_cons] at hg
    simp only [bind, Option.bind_eq_some, pure, Option.some.injEq] at hg
    obtain ⟨x, hx, xs, hxs, rfl⟩ := hg
    rcases List.mem_cons.mp hd with rfl | hd2
    · exact ⟨a, List.mem_cons_self a l, hx⟩
    · obtain ⟨b, hb, hfb⟩ := ih xs hxs d hd2
      exact ⟨b, List.mem_cons_of_mem a hb, hfb⟩

lemma hpPhi0_range (nside m : ℕ) (hm : m < 4 * nside - 1) :
    0 ≤ hpPhi0 nside m ∧ hpPhi0 nside m < 2 * Real.pi := by
  have hn : 1 ≤ nside := by omega
  have hr : 1 ≤ hpNorthring nside m := by unfold hpNorthring; split_ifs <;> omega
  have hnph : 1 ≤ hpNph nside m := by unfold hpNph; split_ifs <;> omega
  have hc : (1 : ℝ) ≤ (hpNph nside m : ℝ) := by exact_mod_cast hnph
  have hπ := Real.pi_pos
  have h2π : (0 : ℝ) < 2 * Real.pi := by linarith
  have hmul : 2 * Real.pi * 1 ≤ 2 * Real.pi * (hpNph nside m : ℝ) :=
    (mul_le_mul_left h2π).mpr hc
  unfold hpPhi0
  split_ifs
  · refine ⟨by positivity, ?_⟩
    rw [div_lt_iff₀ (by linarith)]
    linarith
  · exact ⟨le_rfl, h2π⟩
  · refine ⟨by positivity, ?_⟩
    rw [div_lt_iff₀ (by linarith)]
    linarith

/-- C9 (amended): the HEALPix builder always produces `phi0` in
`[0, 2*pi)` and the Gauss builder always produces `phi0 = 0`; but the ECP
and Driscoll-Healy builders copy the caller-supplied global `phi0` to
every ring unchanged, so their `phi0` lies in `[0, 2*pi)` only when the
caller's value does (the original claim fails for out-of-range callers,
see the counterexample). -/
theorem phi0_range_amended :
    (∀ (nside : ℕ) (stride : ℤ) (w : List ℝ),
      ∀ d ∈ makeWeightedHealpixGeomInfo nside stride w,
        0 ≤ d.phi0 ∧ d.phi0 < 2 * Real.pi) ∧
    (∀ (nrings nphi : ℕ) (strideLon strideLat : ℤ) (g : List RingDescriptor),
      makeGaussGeomInfo nrings nphi strideLon strideLat = some g →
        ∀ d ∈ g, d.phi0 = 0) ∧
    (∀ (nrings nphi : ℕ) (p0 : ℝ) (strideLon strideLat : ℤ)
        (g : List RingDescriptor),
      makeEcpGeomInfo nrings nphi p0 strideLon strideLat = Except.ok g →
        ∀ d ∈ g, d.phi0 = p0) ∧
    (∀ (nrings ppring : ℕ) (p0 : ℝ) (strideLon strideLat : ℤ)
        (g : List HwRing),
      makeHwGeomInfo nrings ppring p0 strideLon strideLat = Except.ok g →
        ∀ d ∈ g, d.phi0 = p0) := by
  refine ⟨?_, ?_, ?_, ?_⟩
  · intro nside stride w d hd
    rw [makeWeightedHealpixGeomInfo, List.mem_map] at hd
    obtain ⟨m, hm, rfl⟩ := hd
    rw [List.mem_range] at hm
    exact hpPhi0_range nside m hm
  · intro nrings nphi strideLon strideLat g hg d hd
    obtain ⟨a, _, ha⟩ := mapM_mem_source _ _ _ hg d hd
    simp only [Option.bind_eq_some, Option.map_eq_some'] at ha
    obtain ⟨x, _, w, _, rfl⟩ := ha
    rfl
  · intro nrings nphi p0 strideLon strideLat g hg d hd
    rw [makeEcpGeomInfo] at hg
    by_cases h : nrings % 2 = 0
    · rw [if_pos h] at hg
      injection hg with hg
      subst hg
      rw [List.mem_map] at hd
      obtain ⟨m, _, rfl⟩ := hd
      rfl
    · rw [if_neg h] at hg
      exact absurd hg (by simp)
  · intro nrings ppring p0 strideLon strideLat g hg d hd
    rw [makeHwGeomInfo] at hg
    by_cases h : nrings % 2 = 1
    · rw [if_pos h] at hg
      injection hg with hg
      subst hg
      rw [List.mem_map] at hd
      obtain ⟨m, _, rfl⟩ := hd
      rfl
    · rw [if_neg h] at hg
      exact absurd hg (by simp)

/-- C9 counterexample: `sharp_make_ecp_geom_info` called with the
caller-supplied `phi0 = 7` succeeds and stores `7` — which is not in
`[0, 2*pi)` since `2*pi < 7` — as the first ring's `phi0`. -/
theorem ecp_phi0_passthrough_cex :
    (makeEcpGeomInfo 2 1 7 1 1).toOption ≠ none ∧
    ((makeEcpGeomInfo 2 1 7 1 1).toOption.getD []).headI.phi0 = 7 ∧
    2 * Real.pi < 7 := by
  refine ⟨?_, ?_, ?_⟩
  · rw [makeEcpGeomInfo, if_pos (by norm_num)]
    simp [Except.toOption]
  · rw [makeEcpGeomInfo, if_pos (by norm_num)]
    simp [Except.toOption, List.range_succ]
  · nlinarith [Real.pi_lt_d2]

theorem phi0_range_amended_w :
    ((makeEcpGeomInfo 2 1 5 1 1).toOption.getD []).headI.phi0 = 5 := by
  have hg : makeEcpGeomInfo 2 1 5 1 1 = Except.ok ((List.range 2).map
      (fun (m : ℕ) =>
        ({ theta := ((m : ℝ) + 0.5) * Real.pi / ((2 : ℕ) : ℝ), nphi := 1,
           phi0 := 5, ofs := (m : ℤ) * 1, stride := 1,
           weight := makeweights (2 / 2) m * (2 * Real.pi / ((1 : ℕ) : ℝ)) } :
          RingDescriptor))) := by
    rw [makeEcpGeomInfo, if_pos (by norm_num)]
  have hmem : ((List.range 2).map
      (fun (m : ℕ) =>
        ({ theta := ((m : ℝ) + 0.5) * Real.pi / ((2 : ℕ) : ℝ), nphi := 1,
           phi0 := 5, ofs := (m : ℤ) * 1, stride := 1,
           weight := makeweights (2 / 2) m * (2 * Real.pi / ((1 : ℕ) : ℝ)) } :
          RingDescriptor))).headI ∈ (List.range 2).map
      (fun (m : ℕ) =>
        ({ theta := ((m : ℝ) + 0.5) * Real.pi / ((2 : ℕ) : ℝ), nphi := 1,
           phi0 := 5, ofs := (m : ℤ) * 1, stride := 1,
           weight := makeweights (2 / 2) m * (2 * Real.pi / ((1 : ℕ) : ℝ)) } :
          RingDescriptor)) := by
    simp [List.range_succ]
  have h := phi0_range_amended.2.2.1 2 1 5 1 1 _ hg _ hmem
  rw [hg]
  simpa [Except.toOption] using h

/-! ## Structural symmetries of the Gauss-Legendre node table

The slot-pairing of `gauss_legendre_tbl` (the writes `x[i-1] = -x0`,
`x[n-i] = x0`, `w[i-1] = w[n-i]`) is structural, and in the exact-real
model the middle seed of an odd order is exactly `cos(pi/2)*t0 = 0`, a
fixed point of the Newton map (for odd `n`, `P_n(0) = 0`).  These lemmas
settle the symmetry parts of the node-table properties; the strict
ordering and positivity of the published Newton limits are not derived
here. -/

lemma foldl_swap_parity (F : K × K → ℕ → K × K)
    (hF : ∀ p k, (F p k).2 = p.1)
    (hF1 : ∀ p k, p.2 = 0 → (F p k).1 = 0) :
    ∀ t, (t % 2 = 0 → ((List.range t).foldl F (0, 1)).1 = 0) ∧
      (t % 2 = 1 → ((List.range t).foldl F (0, 1)).2 = 0) := by
  intro t
  induction t with
  | zero => exact ⟨fun _ => rfl, fun h => by omega⟩
  | succ t ih =>
    have estep : (List.range (t + 1)).foldl F (0, 1) =
        F ((List.range t).foldl F (0, 1)) t := by
      rw [List.range_succ, List.foldl_append, List.foldl_cons, List.foldl_nil]
    constructor
    · intro hpar
      rw [estep]
      exact hF1 _ t (ih.2 (by omega))
    · intro hpar
      rw [estep, hF _ t]
      exact ih.1 (by omega)

/-- For odd `n` the recurrence of `gauss_legendre_tbl` evaluated at `0`
yields `P_n(0) = 0`: the zero alternates between the two recurrence slots
and lands on `P0` after the even number `n-1` of steps. -/
lemma legPair_odd_zero (n : ℕ) (h : n % 2 = 1) : (legPair K n 0).1 = 0 := by
  unfold legPair
  refine (foldl_swap_parity K _ ?_ ?_ (n - 1)).1 (by omega)
  · exact fun p k => rfl
  · exact fun p k hp => by simp [hp]

/-- `0` is a fixed point of the Newton update for odd `n`. -/
lemma nStep_odd_zero (n : ℕ) (h : n % 2 = 1) : nStep K n 0 = 0 := by
  unfold nStep
  rw [legPair_odd_zero K n h, zero_div, sub_zero]

/-- For odd `n` the Newton loop started at seed `0` observes `dx = 0` on
its first pass and publishes the value `0` after the mandatory extra
pass. -/
lemma newtonRun_odd_zero (n : ℕ) (h : n % 2 = 1) :
    newtonRun K n 0 = some (0, dPdx K n 0, 2) := by
  have hs := nStep_odd_zero K n h
  have h0 : convAt K n 0 0 := by
    refine (convAt_zero K n 0).mpr ?_
    rw [hs, sub_self, abs_zero]
    unfold glEps
    positivity
  have h1 : (nStep K n)^[1] (0 : K) = 0 := by
    rw [Function.iterate_one, hs]
  have h2 : (nStep K n)^[2] (0 : K) = 0 := by
    rw [show (2 : ℕ) = 1 + 1 from rfl, Function.iterate_succ_apply, hs, h1]
  unfold newtonRun
  rw [newtonLoop_first_conv K n 0 0 99 h0 (fun j hj => absurd hj (Nat.not_lt_zero j))
    (by omega)]
  simp only [Nat.zero_add]
  rw [h2, h1]

/-- In the exact-real model the middle seed of an odd order is exactly
`cos(pi*(4i-1)/(4n+2))*t0 = cos(pi/2)*t0 = 0`. -/
lemma gaussSeed_middle (j : ℕ) : gaussSeed (2 * j + 1) (j + 1) = 0 := by
  unfold gaussSeed
  have harg : Real.pi * (4 * ((j + 1 : ℕ) : ℝ) - 1) *
      (1 / (4 * ((2 * j + 1 : ℕ) : ℝ) + 2)) = Real.pi / 2 := by
    have hne : 4 * (2 * (j : ℝ) + 1) + 2 ≠ 0 := by positivity
    push_cast
    field_simp
    ring
  rw [harg, Real.cos_pi_div_two, zero_mul]

/-- Slots `j` and `n-1-j` are written by the same loop index `i`. -/
lemma gaussI_pair (n j : ℕ) (hj : j < n) : gaussI n (n - 1 - j) = gaussI n j := by
  unfold gaussI
  split_ifs <;> omega

/-- The weight table of `gauss_legendre_tbl` is symmetric:
`w[j] = w[n-1-j]` by construction (`w[i-1] = w[n-i]`). -/
lemma gaussW_pair (n j : ℕ) (hj : j < n) : gaussW n (n - 1 - j) = gaussW n j := by
  unfold gaussW
  rw [gaussI_pair n j hj]

/-- The middle slot of an odd order holds exactly `0`: the seed is `0`
and the Newton loop fixes it. -/
lemma gaussX_middle (j : ℕ) : gaussX (2 * j + 1) j = some 0 := by
  unfold gaussX
  have hI : gaussI (2 * j + 1) j = j + 1 := by
    unfold gaussI
    rw [if_pos (by omega)]
    omega
  rw [hI, gaussSeed_middle j, newtonRun_odd_zero ℝ (2 * j + 1) (by omega)]
  simp

/-- The node table of `gauss_legendre_tbl` is antisymmetric:
`x[j] = -x[n-1-j]` whenever both slots are published, including the
middle slot of an odd order (where the published value is exactly `0`). -/
lemma gaussX_antisymm (n j : ℕ) (hj : j < n) (a b : ℝ)
    (ha : gaussX n j = some a) (hb : gaussX n (n - 1 - j) = some b) :
    a = -b := by
  unfold gaussX at ha hb
  rw [gaussI_pair n j hj] at hb
  rw [Option.map_eq_some'] at ha hb
  obtain ⟨r, hr, hra⟩ := ha
  obtain ⟨r2, hr2, hrb⟩ := hb
  rw [hr, Option.some.injEq] at hr2
  subst hr2
  rcases lt_trichotomy (2 * j + 1) n with hlt | heq | hgt
  · rw [if_neg (by omega)] at hra
    rw [if_pos (by omega)] at hrb
    subst hra
    subst hrb
    rfl
  · subst heq
    rw [if_pos (by omega)] at hra
    rw [if_pos (by omega)] at hrb
    have hI : gaussI (2 * j + 1) j = j + 1 := by
      unfold gaussI
      rw [if_pos (by omega)]
      omega
    rw [hI, gaussSeed_middle j,
      newtonRun_odd_zero ℝ (2 * j + 1) (by omega), Option.some.injEq] at hr
    subst hr
    subst hra
    subst hrb
    simp
  · rw [if_pos (by omega)] at hra
    rw [if_neg (by omega)] at hrb
    subst hra
    subst hrb
    simp

end LibSharp
